import Mathlib

/-
Verification of the Deno Replit-DB client (src/index.ts) against its
specification.

The client is a thin orchestration layer over four HTTP requests plus the
ECMAScript JSON codec.  The shallow embedding below models:

- the value domain handled by `JSON.stringify` / `JSON.parse` as a mutual
  inductive `Json` (objects and arrays as finite lists).  JavaScript numbers
  are IEEE doubles; the embedding restricts them to integers, the exact
  fragment (floats are not faithfully statable).  Strings are lists of
  Unicode scalar values.
- `JSON.stringify` as the difference-list emitter `emitJson` (no whitespace,
  escapes exactly as ECMA-262: quote, backslash, \n \r \t \b \f, and
  \u00XX for the remaining control characters).
- `JSON.parse` as a fuel-indexed single-function parser `parser` over the
  same whitespace-free fragment that `JSON.stringify` produces (integer
  numbers, no leading zeros, no trailing commas).  `parseJson` runs it with
  fuel larger than the input length and requires full consumption.
- the `Client` methods `get`, `set`, `delete`, `list`, `empty`, `getAll`,
  `setAll`, `deleteMultiple` as pure functions of the transport responses,
  with `encodeURIComponent` / `decodeURIComponent` modelled down to UTF-8
  percent-encoding, and the `Promise.all` fan-out of `empty` /
  `deleteMultiple` modelled by settlement times.
-/

/-! ## Characters and digits -/

/-- Decimal digit test, `48 ≤ code ≤ 57` (same range as JavaScript's lexer). -/
def isDig (c : Char) : Bool := 48 ≤ c.toNat && c.toNat ≤ 57

/-- The character for a decimal digit value. -/
def digitChar (d : Nat) : Char := Char.ofNat (48 + d)

/-- Lower-case hexadecimal digit character (as emitted in \u escapes). -/
def hexDig (d : Nat) : Char :=
  if d < 10 then Char.ofNat (48 + d) else Char.ofNat (87 + d)

/-- Upper-case hexadecimal digit character (as emitted by encodeURIComponent). -/
def hexDigU (d : Nat) : Char :=
  if d < 10 then Char.ofNat (48 + d) else Char.ofNat (55 + d)

/-- Value of a hexadecimal digit character, either case. -/
def hexVal (c : Char) : Option Nat :=
  if 48 ≤ c.toNat ∧ c.toNat ≤ 57 then some (c.toNat - 48)
  else if 97 ≤ c.toNat ∧ c.toNat ≤ 102 then some (c.toNat - 87)
  else if 65 ≤ c.toNat ∧ c.toNat ≤ 70 then some (c.toNat - 55)
  else none

/-- The opening brace character, written by code point. -/
def lbrace : Char := Char.ofNat 123

/-- The closing brace character, written by code point. -/
def rbrace : Char := Char.ofNat 125

/-! ## The JSON value domain -/

mutual
/-- A structurally-serializable JavaScript value: exactly the domain the
client's codec round-trips (numbers restricted to integers, see header). -/
inductive Json where
  | null : Json
  | bool : Bool → Json
  | num : Int → Json
  | str : List Char → Json
  | arr : JsonList → Json
  | obj : JsonObj → Json
deriving DecidableEq
/-- A finite list of JSON values (an array's elements, in order). -/
inductive JsonList where
  | nil : JsonList
  | cons : Json → JsonList → JsonList
deriving DecidableEq
/-- A finite list of key/value members (an object's fields, in order). -/
inductive JsonObj where
  | nil : JsonObj
  | cons : List Char → Json → JsonObj → JsonObj
deriving DecidableEq
end

/-! ## JSON.stringify

Difference-list emitters: each takes the already-emitted tail and conses the
rendering in front, so the round-trip proof never rewrites `++`
associations. -/

/-- Digits of `n`, most significant first, consed onto `r`; emits nothing
for `n = 0` (the caller special-cases zero).  Structural on the fuel so the
kernel can evaluate it; any fuel at least `n` is enough. -/
def emitNatCore : Nat → Nat → List Char → List Char
  | 0, _, r => r
  | f + 1, n, r => if n = 0 then r else emitNatCore f (n / 10) (digitChar (n % 10) :: r)

/-- Decimal rendering of a natural number (zero included), consed onto `r`. -/
def emitNat (n : Nat) (r : List Char) : List Char :=
  if n = 0 then '0' :: r else emitNatCore n n r

/-- Decimal rendering of an integer, with leading minus when negative,
matching the JavaScript `String(n)` for integral `n`. -/
def emitInt (i : Int) (r : List Char) : List Char :=
  if i < 0 then '-' :: emitNat i.natAbs r else emitNat i.toNat r

/-- One string character as JSON.stringify escapes it: quote, backslash and
the named control escapes get two-character forms, remaining control
characters get \u00XX, anything else is emitted verbatim. -/
def escapeChar (c : Char) (r : List Char) : List Char :=
  if c = '"' then '\\' :: '"' :: r
  else if c = '\\' then '\\' :: '\\' :: r
  else if c = '\n' then '\\' :: 'n' :: r
  else if c = '\r' then '\\' :: 'r' :: r
  else if c = '\t' then '\\' :: 't' :: r
  else if c.toNat = 8 then '\\' :: 'b' :: r
  else if c.toNat = 12 then '\\' :: 'f' :: r
  else if c.toNat < 32 then
    '\\' :: 'u' :: '0' :: '0' :: hexDig (c.toNat / 16) :: hexDig (c.toNat % 16) :: r
  else c :: r

/-- Escaped body of a string literal (no surrounding quotes), consed onto `r`. -/
def emitStrBody : List Char → List Char → List Char
  | [], r => r
  | c :: cs, r => escapeChar c (emitStrBody cs r)

mutual
/-- JSON.stringify of a value, consed onto `r`. -/
def emitJson : Json → List Char → List Char
  | .null, r => 'n' :: 'u' :: 'l' :: 'l' :: r
  | .bool true, r => 't' :: 'r' :: 'u' :: 'e' :: r
  | .bool false, r => 'f' :: 'a' :: 'l' :: 's' :: 'e' :: r
  | .num n, r => emitInt n r
  | .str s, r => '"' :: emitStrBody s ('"' :: r)
  | .arr xs, r => '[' :: emitList xs r
  | .obj fs, r => lbrace :: emitObj fs r
/-- Elements of an array after the opening bracket, closing bracket included. -/
def emitList : JsonList → List Char → List Char
  | .nil, r => ']' :: r
  | .cons x xs, r => emitJson x (emitListRest xs r)
/-- Remaining elements, each preceded by a comma, closing bracket included. -/
def emitListRest : JsonList → List Char → List Char
  | .nil, r => ']' :: r
  | .cons x xs, r => ',' :: emitJson x (emitListRest xs r)
/-- Members of an object after the opening brace, closing brace included. -/
def emitObj : JsonObj → List Char → List Char
  | .nil, r => rbrace :: r
  | .cons k v fs, r => '"' :: emitStrBody k ('"' :: ':' :: emitJson v (emitObjRest fs r))
/-- Remaining members, each preceded by a comma, closing brace included. -/
def emitObjRest : JsonObj → List Char → List Char
  | .nil, r => rbrace :: r
  | .cons k v fs, r => ',' :: '"' :: emitStrBody k ('"' :: ':' :: emitJson v (emitObjRest fs r))
end

/-- JSON.stringify as used by `Client.set` (line 58 of the source). -/
def stringify (j : Json) : String := String.mk (emitJson j [])

/-! ## JSON.parse -/

/-- Consume a run of decimal digits, folding them onto `acc`. -/
def parseDigits : List Char → Nat → Nat × List Char
  | [], acc => (acc, [])
  | c :: rest, acc =>
    if isDig c then parseDigits rest (acc * 10 + (c.toNat - 48)) else (acc, c :: rest)

/-- Parse an unsigned JSON integer: one or more digits, no leading zero
(JSON.parse rejects a zero followed by more digits). -/
def parseNumFrom : List Char → Option (Nat × List Char)
  | [] => none
  | c :: rest =>
    if c = '0' then
      match rest with
      | [] => some (0, [])
      | d :: _ => if isDig d then none else some (0, rest)
    else if isDig c then
      some (parseDigits rest (c.toNat - 48))
    else none

mutual
/-- Parse a string-literal body after the opening quote, undoing the escapes
of `escapeChar` (JSON.parse also accepts the \/ escape and any \uXXXX);
literal control characters are rejected, as JSON requires. -/
def parseStrBody : List Char → Option (List Char × List Char)
  | [] => none
  | c :: rest =>
    if c = '"' then some ([], rest)
    else if c = '\\' then parseEsc rest
    else if c.toNat < 32 then none
    else (parseStrBody rest).map (fun p => (c :: p.1, p.2))
/-- Parse what follows a backslash inside a string literal. -/
def parseEsc : List Char → Option (List Char × List Char)
  | [] => none
  | e :: rest =>
    if e = '"' then (parseStrBody rest).map (fun p => ('"' :: p.1, p.2))
    else if e = '\\' then (parseStrBody rest).map (fun p => ('\\' :: p.1, p.2))
    else if e = '/' then (parseStrBody rest).map (fun p => ('/' :: p.1, p.2))
    else if e = 'b' then (parseStrBody rest).map (fun p => (Char.ofNat 8 :: p.1, p.2))
    else if e = 'f' then (parseStrBody rest).map (fun p => (Char.ofNat 12 :: p.1, p.2))
    else if e = 'n' then (parseStrBody rest).map (fun p => ('\n' :: p.1, p.2))
    else if e = 'r' then (parseStrBody rest).map (fun p => ('\r' :: p.1, p.2))
    else if e = 't' then (parseStrBody rest).map (fun p => ('\t' :: p.1, p.2))
    else if e = 'u' then parseHexEsc rest
    else none
/-- Parse the four hex digits of a \uXXXX escape, then the rest of the body. -/
def parseHexEsc : List Char → Option (List Char × List Char)
  | h1 :: h2 :: h3 :: h4 :: rest =>
    match hexVal h1, hexVal h2, hexVal h3, hexVal h4 with
    | some a, some b, some c2, some d =>
      (parseStrBody rest).map
        (fun p => (Char.ofNat (((a * 16 + b) * 16 + c2) * 16 + d) :: p.1, p.2))
    | _, _, _, _ => none
  | _ => none
end

/-- Expect the tail of the `null` literal. -/
def expectNull : List Char → Option (List Char)
  | 'u' :: 'l' :: 'l' :: r => some r
  | _ => none

/-- Expect the tail of the `true` literal. -/
def expectTrue : List Char → Option (List Char)
  | 'r' :: 'u' :: 'e' :: r => some r
  | _ => none

/-- Expect the tail of the `false` literal. -/
def expectFalse : List Char → Option (List Char)
  | 'a' :: 'l' :: 's' :: 'e' :: r => some r
  | _ => none

/-- Position of the recursive-descent parser: a value, the inside of an
array (at the first element or after a comma), or the inside of an object
(`fieldsMust` requires a member, so trailing commas are rejected). -/
inductive PMode where
  | val : PMode
  | items : PMode
  | itemsTail : PMode
  | fields : PMode
  | fieldsMust : PMode
  | fieldsTail : PMode
deriving DecidableEq

/-- Result of one parser step, tagged by position. -/
inductive PRes where
  | v : Json → PRes
  | l : JsonList → PRes
  | o : JsonObj → PRes
deriving DecidableEq

/-- JSON.parse, restricted to the whitespace-free fragment JSON.stringify
emits (see the header).  Fuel only decreases; any fuel above the input
length is enough.  `items` parses `]` or the elements after `[`;
`itemsTail` parses `]` or `, element ...`; `fields`/`fieldsTail` are the
object analogues. -/
def parser : Nat → PMode → List Char → Option (PRes × List Char)
  | 0, _, _ => none
  | _ + 1, _, [] => none
  | f + 1, .val, c :: cs =>
    if c = 'n' then
      match expectNull cs with
      | some r => some (.v .null, r)
      | none => none
    else if c = 't' then
      match expectTrue cs with
      | some r => some (.v (.bool true), r)
      | none => none
    else if c = 'f' then
      match expectFalse cs with
      | some r => some (.v (.bool false), r)
      | none => none
    else if c = '"' then
      match parseStrBody cs with
      | some (s, r) => some (.v (.str s), r)
      | none => none
    else if c = '[' then
      match parser f .items cs with
      | some (.l xs, r) => some (.v (.arr xs), r)
      | _ => none
    else if c = lbrace then
      match parser f .fields cs with
      | some (.o fs, r) => some (.v (.obj fs), r)
      | _ => none
    else if c = '-' then
      match parseNumFrom cs with
      | some (m, r) => some (.v (.num (-(m : Int))), r)
      | none => none
    else if isDig c then
      match parseNumFrom (c :: cs) with
      | some (m, r) => some (.v (.num (m : Int)), r)
      | none => none
    else none
  | f + 1, .items, c :: cs =>
    if c = ']' then some (.l .nil, cs)
    else
      match parser f .val (c :: cs) with
      | some (.v x, r) =>
        (match parser f .itemsTail r with
         | some (.l xs, r2) => some (.l (.cons x xs), r2)
         | _ => none)
      | _ => none
  | f + 1, .itemsTail, c :: cs =>
    if c = ']' then some (.l .nil, cs)
    else if c = ',' then
      match parser f .val cs with
      | some (.v x, r) =>
        (match parser f .itemsTail r with
         | some (.l xs, r2) => some (.l (.cons x xs), r2)
         | _ => none)
      | _ => none
    else none
  | f + 1, .fields, c :: cs =>
    if c = rbrace then some (.o .nil, cs)
    else parser f .fieldsMust (c :: cs)
  | f + 1, .fieldsMust, c :: cs =>
    if c = '"' then
      match parseStrBody cs with
      | some (k, d :: r) =>
        if d = ':' then
          match parser f .val r with
          | some (.v v, r2) =>
            (match parser f .fieldsTail r2 with
             | some (.o fs, r3) => some (.o (.cons k v fs), r3)
             | _ => none)
          | _ => none
        else none
      | _ => none
    else none
  | f + 1, .fieldsTail, c :: cs =>
    if c = rbrace then some (.o .nil, cs)
    else if c = ',' then parser f .fieldsMust cs
    else none

/-- JSON.parse of a whole text: the parsed value when the parser consumes
every character, `none` when the text is rejected (the thrown SyntaxError). -/
def parseJson (s : String) : Option Json :=
  match parser (s.data.length + 1) .val s.data with
  | some (.v j, []) => some j
  | _ => none

/-! ## Size measures and head classification -/

mutual
/-- Structural size of a value (used as the parser-fuel lower bound). -/
def sizeJ : Json → Nat
  | .null => 1
  | .bool _ => 1
  | .num _ => 1
  | .str _ => 1
  | .arr xs => sizeL xs + 1
  | .obj fs => sizeO fs + 2
/-- Size of an element list. -/
def sizeL : JsonList → Nat
  | .nil => 1
  | .cons x xs => sizeJ x + sizeL xs
/-- Size of a member list. -/
def sizeO : JsonObj → Nat
  | .nil => 0
  | .cons _ v fs => sizeJ v + sizeO fs + 1
end

/-- A remainder the integer parser must not extend into: empty or not
starting with a digit.  Every delimiter emitted after a value (comma,
closing bracket, closing brace, end of input) qualifies. -/
def noLeadDig : List Char → Bool
  | [] => true
  | c :: _ => !isDig c

/-- Powers of ten matching the digit count of `n` (1 for `n = 0`). -/
def tenPow (n : Nat) : Nat :=
  if n = 0 then 1 else 10 * tenPow (n / 10)
termination_by n
decreasing_by exact Nat.div_lt_self (by omega) (by omega)

/-! ## URI component coding

Models of the ECMAScript `encodeURIComponent` / `decodeURIComponent`
built-ins used by `list` (src/index.ts lines 81-92): percent-encoding of
UTF-8 bytes, with the unreserved set of ECMA-262.  `decodeURIComponent`
returns `none` where JavaScript throws URIError. -/

/-- Characters `encodeURIComponent` leaves unescaped. -/
def uriUnreservedChar (c : Char) : Bool :=
  (65 ≤ c.toNat && c.toNat ≤ 90) || (97 ≤ c.toNat && c.toNat ≤ 122) ||
  (48 ≤ c.toNat && c.toNat ≤ 57) || c = '-' || c = '_' || c = '.' ||
  c = '!' || c = '~' || c = '*' || c = Char.ofNat 39 || c = '(' || c = ')'

/-- The UTF-8 bytes of one scalar value. -/
def utf8EncodeChar (c : Char) : List Nat :=
  let n := c.toNat
  if n < 128 then [n]
  else if n < 2048 then [192 + n / 64, 128 + n % 64]
  else if n < 65536 then [224 + n / 4096, 128 + n / 64 % 64, 128 + n % 64]
  else [240 + n / 262144, 128 + n / 4096 % 64, 128 + n / 64 % 64, 128 + n % 64]

/-- One percent-escaped byte, upper-case hex as JavaScript emits it. -/
def percentHex (b : Nat) : List Char := ['%', hexDigU (b / 16), hexDigU (b % 16)]

/-- Character-list worker of `encodeURIComponent`. -/
def encodeURIComponentChars : List Char → List Char
  | [] => []
  | c :: cs =>
    (if uriUnreservedChar c then [c]
     else (utf8EncodeChar c).foldr (fun b r => percentHex b ++ r) [])
      ++ encodeURIComponentChars cs

/-- The ECMAScript `encodeURIComponent`. -/
def encodeURIComponent (s : String) : String :=
  String.mk (encodeURIComponentChars s.data)

/-- Percent-decode to a byte sequence; a literal character contributes its
own UTF-8 bytes.  `none` on a percent sign not followed by two hex digits. -/
def percentBytes : List Char → Option (List Nat)
  | [] => some []
  | c :: cs =>
    if c = '%' then
      match cs with
      | h1 :: h2 :: cs2 =>
        match hexVal h1, hexVal h2 with
        | some a, some b => (percentBytes cs2).map (fun bs => (a * 16 + b) :: bs)
        | _, _ => none
      | _ => none
    else (percentBytes cs).map (fun bs => utf8EncodeChar c ++ bs)

/-- Strict UTF-8 decoding (overlong forms, surrogates and out-of-range
code points rejected, as `decodeURIComponent` requires). -/
def utf8Decode : List Nat → Option (List Char)
  | [] => some []
  | b :: bs =>
    if b < 128 then (utf8Decode bs).map (fun cs => Char.ofNat b :: cs)
    else if 194 ≤ b && b ≤ 223 then
      match bs with
      | b2 :: bs2 =>
        if 128 ≤ b2 && b2 < 192 then
          (utf8Decode bs2).map (fun cs => Char.ofNat ((b - 192) * 64 + (b2 - 128)) :: cs)
        else none
      | [] => none
    else if 224 ≤ b && b ≤ 239 then
      match bs with
      | b2 :: b3 :: bs3 =>
        if (128 ≤ b2 && b2 < 192) && (128 ≤ b3 && b3 < 192) then
          let n := (b - 224) * 4096 + (b2 - 128) * 64 + (b3 - 128)
          if 2048 ≤ n && (n < 55296 || 57343 < n) then
            (utf8Decode bs3).map (fun cs => Char.ofNat n :: cs)
          else none
        else none
      | _ => none
    else if 240 ≤ b && b ≤ 244 then
      match bs with
      | b2 :: b3 :: b4 :: bs4 =>
        if (128 ≤ b2 && b2 < 192) && ((128 ≤ b3 && b3 < 192) && (128 ≤ b4 && b4 < 192)) then
          let n := (b - 240) * 262144 + (b2 - 128) * 4096 + (b3 - 128) * 64 + (b4 - 128)
          if 65536 ≤ n && n ≤ 1114111 then
            (utf8Decode bs4).map (fun cs => Char.ofNat n :: cs)
          else none
        else none
      | _ => none
    else none

/-- The ECMAScript `decodeURIComponent`; `none` models a thrown URIError. -/
def decodeURIComponent (s : String) : Option String :=
  (percentBytes s.data).bind (fun bs => (utf8Decode bs).map String.mk)

/-! ## Newline splitting (the JavaScript `text.split("\n")`) -/

/-- `split` on newline: always at least one (possibly empty) segment. -/
def splitNl : List Char → List (List Char)
  | [] => [[]]
  | c :: cs =>
    if c = '\n' then [] :: splitNl cs
    else
      match splitNl cs with
      | s :: rest => (c :: s) :: rest
      | [] => [[c]]

/-- Join segments with newlines (the server's wire format for `list`). -/
def joinNl : List (List Char) → List Char
  | [] => []
  | [s] => s
  | s :: s2 :: rest => s ++ '\n' :: joinNl (s2 :: rest)

/-! ## The client

Each method is modelled as a pure function of the transport responses it
would receive; the HTTP request it issues is represented explicitly where a
claim is about the request. -/

/-- One HTTP request as the client issues it. -/
inductive Request where
  | get : String → Request
  | post : String → String → Request
  | delete : String → Request
deriving DecidableEq

/-- What a call to `get` can return: the raw text (raw mode), `null`, or a
decoded value.  JavaScript's `null` return (for an empty body or a stored
`null`) is the `null` constructor. -/
inductive GetResult where
  | str : String → GetResult
  | null : GetResult
  | val : Json → GetResult
deriving DecidableEq

/-- The SyntaxError message thrown by `get` (src/index.ts lines 39-41). -/
def decodeErrorMsg (key : String) : String :=
  "Failed to parse value of " ++ key ++ ", try passing a raw option to get the raw value"

/-- Models `Client.get` (src/index.ts lines 22-50) as a function of the
fetched body text.  The `options.raw` branch returns the text verbatim
(even when empty); a falsy (empty) body yields `null`; otherwise the body
is JSON-parsed — a failed parse throws the SyntaxError naming the key, and
a parsed `null` is normalized to the `null` return (`JSON.parse` never
returns `undefined`, so that half of the check at line 44 is inert). -/
def Client.get (key : String) ( raw : Bool) (body : String) : Except String GetResult :=
  if raw then .ok (.str body)
  else if body = "" then .ok .null
  else
    match parseJson body with
    | none => .error (decodeErrorMsg key)
    | some .null => .ok .null
    | some j => .ok (.val j)

/-- The URL `get` and `delete` address (src/index.ts lines 23 and 73). -/
def Client.keyURL (base key : String) : String := base ++ "/" ++ key

/-- The POST body `set` sends (src/index.ts line 63): the key, an equals
sign, and the `JSON.stringify` text with no further encoding. -/
def Client.setBody (key : String) (v : Json) : String :=
  key ++ "=" ++ stringify v

/-- Models `Client.set` (src/index.ts lines 57-66): the requests issued —
exactly one POST to the base endpoint with the form-style body. -/
def Client.set (base key : String) (v : Json) : List Request :=
  [.post base (Client.setBody key v)]

/-- Models the completion of `set`: the fetch response is discarded, so any
status resolves to success and only a transport rejection propagates. -/
def Client.setResult (resp : Except String Nat) : Except String Unit :=
  match resp with
  | .error e => .error e
  | .ok _ => .ok ()

/-- Models the completion of `delete` (src/index.ts lines 72-75), same
shape as `setResult`: the status is never inspected. -/
def Client.deleteResult (resp : Except String Nat) : Except String Unit :=
  match resp with
  | .error e => .error e
  | .ok _ => .ok ()

/-- Models the constructor (src/index.ts lines 11-14).  `if (key)` is
JavaScript truthiness, so an absent or empty explicit key falls back to
`Deno.env.get("REPLIT_DB_URL")`, which is `undefined` (`none`) when unset;
the TypeScript `!` assertion performs no runtime check, so construction
always succeeds — the `Except` records that no error can be produced. -/
def Client.construct (explicitKey : Option String) (envURL : Option String) :
    Except String (Option String) :=
  .ok (match explicitKey with
       | some k => if k = "" then envURL else some k
       | none => envURL)

/-- The URL `list` addresses (src/index.ts lines 82-84). -/
def Client.listURL (base pfx : String) : String :=
  base ++ "?encode=true&prefix=" ++ encodeURIComponent pfx

/-- Models the response handling of `list` (src/index.ts lines 85-91): an
empty body is the empty list, otherwise split on newline and URL-decode
each segment in order (`none` models a URIError escaping the map). -/
def Client.listFromBody (body : String) : Option (List String) :=
  if body.length = 0 then some []
  else (splitNl body.data).mapM (fun seg => decodeURIComponent (String.mk seg))

/-! ## The promise model for the parallel fan-out

`empty` and `deleteMultiple` push one `delete` promise per key without
awaiting (the requests are issued during the synchronous loop) and then
`await Promise.all(promises)`.  A promise is modelled by its settlement
time and its outcome; `Promise.all` resolves at the latest settlement when
all fulfill, and otherwise rejects with the earliest rejection — without
waiting for the remaining promises to settle. -/

/-- A settled promise: when it settled and the rejection reason, if any. -/
structure Settled where
  time : Nat
  error : Option String
deriving DecidableEq

/-- The earliest rejection of a list of promises (first in array order
among ties, as the earlier microtask wins). -/
def firstRej : List Settled → Option Settled
  | [] => none
  | p :: ps =>
    match p.error with
    | some _ =>
      match firstRej ps with
      | some q => if p.time ≤ q.time then some p else some q
      | none => some p
    | none => firstRej ps

/-- The latest settlement time of a list of promises. -/
def settleMax : List Settled → Nat
  | [] => 0
  | p :: ps => max p.time (settleMax ps)

/-- `Promise.all`: fulfills at the latest settlement when every promise
fulfills; rejects at (and with) the earliest rejection otherwise. -/
def promiseAll (ps : List Settled) : Settled :=
  match firstRej ps with
  | some q => q
  | none => ⟨settleMax ps, none⟩

/-- Models `Client.deleteMultiple` (src/index.ts lines 137-147): the list
of keys whose deletes are issued (all of them, in argument order, before
any await) paired with the `Promise.all` outcome under the settlement
oracle `del`. -/
def Client.deleteMultiple (del : String → Settled) (keys : List String) :
    List String × Settled :=
  (keys, promiseAll (keys.map del))

/-- Models `Client.empty` (src/index.ts lines 98-107): identical fan-out to
`deleteMultiple`, over the keys returned by `list`. -/
def Client.empty (del : String → Settled) (listedKeys : List String) :
    List String × Settled :=
  (listedKeys, promiseAll (listedKeys.map del))

/-- Models `Client.setAll` (src/index.ts lines 125-131): one sequential
`set` per entry in iteration order, each awaited before the next starts.
Returns the keys attempted in order, the entries written, and the first
transport error (after which the loop aborts — the rejection propagates out
of the `await`). -/
def Client.setAllRun (post : String → Json → Option String) :
    List (String × Json) → List String × List (String × Json) × Option String
  | [] => ([], [], none)
  | (k, v) :: rest =>
    match post k v with
    | some e => ([k], [], some e)
    | none =>
      match Client.setAllRun post rest with
      | (att, wr, err) => (k :: att, (k, v) :: wr, err)

/-- Models `Client.getAll` (src/index.ts lines 112-119): one sequential
non-raw `get` per listed key, accumulating `output[key] = value` —
including `null` values, which still create the property. -/
def Client.getAllRun (fetchBody : String → String) :
    List String → Except String (List (String × GetResult))
  | [] => .ok []
  | k :: rest =>
    match Client.get k false (fetchBody k) with
    | .error e => .error e
    | .ok v =>
      match Client.getAllRun fetchBody rest with
      | .error e => .error e
      | .ok out => .ok ((k, v) :: out)

/-- A nested sample value exercising objects, arrays, negative numbers and
escaped string characters. -/
def sampleJson : Json :=
  .obj (.cons ['a'] (.arr (.cons (.num (-12)) (.cons (.str ['h', '\n']) .nil)))
    (.cons ['k'] (.bool false) .nil))

/-- A settlement oracle where the delete of k2 rejects early (time 1) while
k1 and k3 are still in flight (times 5 and 7). -/
def cexDel : String → Settled := fun k =>
  if k = "k2" then ⟨1, some "boom"⟩ else if k = "k3" then ⟨7, none⟩ else ⟨5, none⟩

/-- A transport oracle whose `set` fails exactly on the key "bad". -/
def cexPost : String → Json → Option String := fun k _ =>
  if k = "bad" then some "boom" else none

/-- A body oracle where the key "a" has empty stored text and "b" stores 1. -/
def cexBody : String → String := fun k => if k = "a" then "" else "1"

/-! ## Theorems -/

theorem sizeJ_pos (j : Json) : 0 < sizeJ j := by
  cases j <;> simp [sizeJ]

theorem sizeL_pos (xs : JsonList) : 0 < sizeL xs := by
  cases xs with
  | nil => simp [sizeL]
  | cons x xs => simp [sizeL]; have := sizeJ_pos x; omega

/-! ## Digit round-trip lemmas -/

theorem digitChar_isDig (d : Nat) (h : d < 10) : isDig (digitChar d) = true := by
  interval_cases d <;> decide

theorem digitChar_val (d : Nat) (h : d < 10) : (digitChar d).toNat - 48 = d := by
  interval_cases d <;> decide

theorem digitChar_ne_zero (d : Nat) (h1 : d < 10) (h2 : d ≠ 0) : digitChar d ≠ '0' := by
  interval_cases d <;> simp_all <;> decide

theorem hexVal_hexDig (d : Nat) (h : d < 16) : hexVal (hexDig d) = some d := by
  interval_cases d <;> decide

theorem parseDigits_stop (cs : List Char) (acc : Nat) (h : noLeadDig cs = true) :
    parseDigits cs acc = (acc, cs) := by
  cases cs with
  | nil => rfl
  | cons c rest =>
    simp only [noLeadDig, Bool.not_eq_true'] at h
    simp [parseDigits, h]

theorem parseDigits_emitNatCore (f : Nat) :
    ∀ n acc rest, n ≤ f →
      parseDigits (emitNatCore f n rest) acc = parseDigits rest (acc * tenPow n + n) := by
  induction f with
  | zero =>
    intro n acc rest hn
    have h0 : n = 0 := by omega
    subst h0
    simp [emitNatCore, tenPow]
  | succ f ih =>
    intro n acc rest hn
    by_cases h0 : n = 0
    · subst h0; simp [emitNatCore, tenPow]
    · have hstep : emitNatCore (f + 1) n rest = emitNatCore f (n / 10) (digitChar (n % 10) :: rest) := by
        simp [emitNatCore, h0]
      rw [hstep, ih (n / 10) acc _ (by omega)]
      have hd : isDig (digitChar (n % 10)) = true := digitChar_isDig _ (by omega)
      have hv : (digitChar (n % 10)).toNat - 48 = n % 10 := digitChar_val _ (by omega)
      simp only [parseDigits, hd, if_pos, hv]
      have hten : tenPow n = 10 * tenPow (n / 10) := by
        rw [tenPow]; simp [h0]
      rw [hten]
      congr 1
      have hsplit : n / 10 * 10 + n % 10 = n := by omega
      calc (acc * tenPow (n / 10) + n / 10) * 10 + n % 10
          = acc * tenPow (n / 10) * 10 + (n / 10 * 10 + n % 10) := by ring
        _ = acc * (10 * tenPow (n / 10)) + n := by rw [hsplit]; ring

theorem emitNatCore_zero (f : Nat) (r : List Char) : emitNatCore f 0 r = r := by
  cases f <;> simp [emitNatCore]

theorem emitNatCore_head (f : Nat) :
    ∀ n rest, 0 < n → n ≤ f →
      ∃ c cs, emitNatCore f n rest = c :: cs ∧ isDig c = true ∧ c ≠ '0' := by
  induction f with
  | zero => intro n rest hn hf; omega
  | succ f ih =>
    intro n rest hn hf
    have hstep : emitNatCore (f + 1) n rest = emitNatCore f (n / 10) (digitChar (n % 10) :: rest) := by
      simp [emitNatCore]; omega
    by_cases h10 : n / 10 = 0
    · have hlt : n < 10 := by omega
      have hmod : n % 10 = n := by omega
      refine ⟨digitChar n, rest, ?_, digitChar_isDig n hlt, digitChar_ne_zero n hlt (by omega)⟩
      rw [hstep, h10, emitNatCore_zero, hmod]
    · obtain ⟨c, cs, he, hd, hz⟩ := ih (n / 10) (digitChar (n % 10) :: rest) (by omega) (by omega)
      exact ⟨c, cs, by rw [hstep, he], hd, hz⟩

theorem parseNumFrom_emitNat (n : Nat) (rest : List Char) (hr : noLeadDig rest = true) :
    parseNumFrom (emitNat n rest) = some (n, rest) := by
  by_cases h0 : n = 0
  · subst h0
    show parseNumFrom ('0' :: rest) = some (0, rest)
    cases rest with
    | nil => rfl
    | cons d t =>
      simp only [noLeadDig, Bool.not_eq_true'] at hr
      simp [parseNumFrom, hr]
  · have hemit : emitNat n rest = emitNatCore n n rest := by simp [emitNat, h0]
    obtain ⟨c, cs, he, hd, hz⟩ := emitNatCore_head n n rest (by omega) le_rfl
    have hparse : parseDigits (emitNatCore n n rest) 0 = (n, rest) := by
      rw [parseDigits_emitNatCore n n 0 rest le_rfl, Nat.zero_mul, Nat.zero_add,
        parseDigits_stop rest n hr]
    rw [hemit, he]
    rw [he] at hparse
    simp only [parseDigits, hd, if_pos] at hparse
    simp only [parseNumFrom, hz, if_neg, hd, if_pos]
    simp only [Nat.zero_mul, Nat.zero_add] at hparse
    simp [hparse]

/-! ## String-escape round trip -/

theorem parseStrBody_emitStrBody (s : List Char) :
    ∀ rest, parseStrBody (emitStrBody s ('"' :: rest)) = some (s, rest) := by
  induction s with
  | nil => intro rest; rfl
  | cons c cs ih =>
    intro rest
    show parseStrBody (escapeChar c (emitStrBody cs ('"' :: rest))) = _
    by_cases h1 : c = '"'
    · subst h1; simp [escapeChar, parseStrBody, parseEsc, ih]
    · by_cases h2 : c = '\\'
      · subst h2; simp [escapeChar, parseStrBody, parseEsc, ih]
      · by_cases h3 : c = '\n'
        · subst h3; simp [escapeChar, parseStrBody, parseEsc, ih]
        · by_cases h4 : c = '\r'
          · subst h4; simp [escapeChar, parseStrBody, parseEsc, ih]
          · by_cases h5 : c = '\t'
            · subst h5; simp [escapeChar, parseStrBody, parseEsc, ih]
            · by_cases h6 : c.toNat = 8
              · have hc : c = Char.ofNat 8 := by rw [← h6, Char.ofNat_toNat]
                subst hc
                simp [escapeChar, parseStrBody, parseEsc, ih]
              · by_cases h7 : c.toNat = 12
                · have hc : c = Char.ofNat 12 := by rw [← h7, Char.ofNat_toNat]
                  subst hc
                  simp [escapeChar, parseStrBody, parseEsc, ih]
                · by_cases h8 : c.toNat < 32
                  · have hemit : escapeChar c (emitStrBody cs ('"' :: rest)) =
                        '\\' :: 'u' :: '0' :: '0' :: hexDig (c.toNat / 16) :: hexDig (c.toNat % 16)
                          :: emitStrBody cs ('"' :: rest) := by
                      simp [escapeChar, h1, h2, h3, h4, h5, h6, h7, h8]
                    rw [hemit]
                    have hhi : hexVal (hexDig (c.toNat / 16)) = some (c.toNat / 16) :=
                      hexVal_hexDig _ (by omega)
                    have hlo : hexVal (hexDig (c.toNat % 16)) = some (c.toNat % 16) :=
                      hexVal_hexDig _ (by omega)
                    have harith : c.toNat / 16 * 16 + c.toNat % 16 = c.toNat := by omega
                    have h00 : hexVal '0' = some 0 := by decide
                    simp [parseStrBody, parseEsc, parseHexEsc, h00, hhi, hlo, harith,
                      Char.ofNat_toNat, ih]
                  · have hemit : escapeChar c (emitStrBody cs ('"' :: rest)) =
                        c :: emitStrBody cs ('"' :: rest) := by
                      simp [escapeChar, h1, h2, h3, h4, h5, h6, h7, h8]
                    rw [hemit]
                    simp [parseStrBody, h1, h2, h8, ih]

/-! ## Heads of emitted values and parser dispatch -/

theorem isDig_ne_starts (c : Char) (h : isDig c = true) :
    c ≠ 'n' ∧ c ≠ 't' ∧ c ≠ 'f' ∧ c ≠ '"' ∧ c ≠ '[' ∧ c ≠ lbrace ∧ c ≠ '-' ∧ c ≠ ']' := by
  refine ⟨?_, ?_, ?_, ?_, ?_, ?_, ?_, ?_⟩ <;>
    (intro he; subst he; exact absurd h (by decide))

/-- Every emitted value starts with a character other than a closing
bracket, so the element parser never mistakes it for the end of an array. -/
theorem emitJson_head (j : Json) (r : List Char) :
    ∃ c cs, emitJson j r = c :: cs ∧ c ≠ ']' := by
  cases j with
  | null => exact ⟨'n', 'u' :: 'l' :: 'l' :: r, by simp [emitJson], by decide⟩
  | bool b => cases b with
    | true => exact ⟨'t', 'r' :: 'u' :: 'e' :: r, by simp [emitJson], by decide⟩
    | false => exact ⟨'f', 'a' :: 'l' :: 's' :: 'e' :: r, by simp [emitJson], by decide⟩
  | str s => exact ⟨'"', emitStrBody s ('"' :: r), by simp [emitJson], by decide⟩
  | arr xs => exact ⟨'[', emitList xs r, by simp [emitJson], by decide⟩
  | obj fs => exact ⟨lbrace, emitObj fs r, by simp [emitJson], by decide⟩
  | num n =>
    by_cases hn : n < 0
    · exact ⟨'-', emitNat n.natAbs r, by simp [emitJson, emitInt, hn], by decide⟩
    · by_cases hz : n.toNat = 0
      · refine ⟨'0', r, ?_, by decide⟩
        simp [emitJson, emitInt, hn, emitNat, hz]
      · obtain ⟨c, cs, he, hd, _⟩ := emitNatCore_head n.toNat n.toNat r (by omega) le_rfl
        refine ⟨c, cs, ?_, (isDig_ne_starts c hd).2.2.2.2.2.2.2⟩
        simp [emitJson, emitInt, hn, emitNat, hz, he]

theorem noLeadDig_emitListRest (xs : JsonList) (r : List Char) :
    noLeadDig (emitListRest xs r) = true := by
  cases xs <;> simp [emitListRest, noLeadDig, isDig]

theorem noLeadDig_emitObjRest (fs : JsonObj) (r : List Char) :
    noLeadDig (emitObjRest fs r) = true := by
  cases fs <;> simp [emitObjRest, noLeadDig, isDig, rbrace]

/-- Parser dispatch at a digit head: the value branch falls through to the
number parser. -/
theorem parser_val_digit (g : Nat) (c : Char) (cs : List Char) (h : isDig c = true) :
    parser (g + 1) .val (c :: cs)
      = (match parseNumFrom (c :: cs) with
         | some (m, r) => some (.v (.num (m : Int)), r)
         | none => none) := by
  obtain ⟨h1, h2, h3, h4, h5, h6, h7, _⟩ := isDig_ne_starts c h
  simp [parser, h1, h2, h3, h4, h5, h6, h7, h]

/-- The value parser inverts `emitNat`. -/
theorem parser_val_emitNat (g m : Nat) (rest : List Char) (hr : noLeadDig rest = true) :
    parser (g + 1) .val (emitNat m rest) = some (.v (.num (m : Int)), rest) := by
  by_cases hz : m = 0
  · subst hz
    have hp : parseNumFrom ('0' :: rest) = some (0, rest) := parseNumFrom_emitNat 0 rest hr
    have hstep : parser (g + 1) .val ('0' :: rest)
        = (match parseNumFrom ('0' :: rest) with
           | some (m, r) => some (.v (.num (m : Int)), r)
           | none => none) := rfl
    show parser (g + 1) .val ('0' :: rest) = _
    rw [hstep, hp]
  · have hemit : emitNat m rest = emitNatCore m m rest := by simp [emitNat, hz]
    obtain ⟨c, cs, he, hd, _⟩ := emitNatCore_head m m rest (by omega) le_rfl
    have hp : parseNumFrom (c :: cs) = some (m, rest) := by
      rw [← he, ← hemit]; exact parseNumFrom_emitNat m rest hr
    rw [hemit, he, parser_val_digit g c cs hd, hp]

/-- The value parser inverts `emitInt`. -/
theorem parser_val_emitInt (g : Nat) (n : Int) (rest : List Char) (hr : noLeadDig rest = true) :
    parser (g + 1) .val (emitInt n rest) = some (.v (.num n), rest) := by
  by_cases hneg : n < 0
  · have hemit : emitInt n rest = '-' :: emitNat n.natAbs rest := by simp [emitInt, hneg]
    have hstep : parser (g + 1) .val ('-' :: emitNat n.natAbs rest)
        = (match parseNumFrom (emitNat n.natAbs rest) with
           | some (m, r) => some (.v (.num (-(m : Int))), r)
           | none => none) := rfl
    have hcast : -((n.natAbs : Nat) : Int) = n := by omega
    rw [hemit, hstep, parseNumFrom_emitNat _ _ hr]
    show some (PRes.v (Json.num (-((n.natAbs : Nat) : Int))), rest)
        = some (PRes.v (Json.num n), rest)
    rw [hcast]
  · have hemit : emitInt n rest = emitNat n.toNat rest := by simp [emitInt, hneg]
    have hcast : ((n.toNat : Nat) : Int) = n := by omega
    rw [hemit, parser_val_emitNat g _ rest hr, hcast]

/-! ## The codec round trip -/

mutual
/-- The value parser inverts `emitJson` given enough fuel. -/
theorem parser_emitJson : ∀ (j : Json) (f : Nat) (rest : List Char),
    sizeJ j < f → noLeadDig rest = true →
    parser f .val (emitJson j rest) = some (.v j, rest)
  | .null, f, rest, hf, hr => by
    cases f with
    | zero => exact absurd hf (Nat.not_lt_zero _)
    | succ g => rfl
  | .bool b, f, rest, hf, hr => by
    cases f with
    | zero => exact absurd hf (Nat.not_lt_zero _)
    | succ g => cases b <;> rfl
  | .num n, f, rest, hf, hr => by
    cases f with
    | zero => exact absurd hf (Nat.not_lt_zero _)
    | succ g => exact parser_val_emitInt g n rest hr
  | .str s, f, rest, hf, hr => by
    cases f with
    | zero => exact absurd hf (Nat.not_lt_zero _)
    | succ g =>
      show parser (g + 1) .val ('"' :: emitStrBody s ('"' :: rest)) = _
      have hstep : parser (g + 1) .val ('"' :: emitStrBody s ('"' :: rest))
          = (match parseStrBody (emitStrBody s ('"' :: rest)) with
             | some (s, r) => some (.v (.str s), r)
             | none => none) := rfl
      rw [hstep, parseStrBody_emitStrBody s rest]
  | .arr xs, f, rest, hf, hr => by
    cases f with
    | zero => exact absurd hf (Nat.not_lt_zero _)
    | succ g =>
      show parser (g + 1) .val ('[' :: emitList xs rest) = _
      have hstep : parser (g + 1) .val ('[' :: emitList xs rest)
          = (match parser g .items (emitList xs rest) with
             | some (.l xs, r) => some (.v (.arr xs), r)
             | _ => none) := rfl
      have hb : parser g .items (emitList xs rest) = some (.l xs, rest) :=
        parser_emitList xs g rest (by simp [sizeJ] at hf; omega) hr
      rw [hstep, hb]
  | .obj fs, f, rest, hf, hr => by
    cases f with
    | zero => exact absurd hf (Nat.not_lt_zero _)
    | succ g =>
      show parser (g + 1) .val (lbrace :: emitObj fs rest) = _
      have hstep : parser (g + 1) .val (lbrace :: emitObj fs rest)
          = (match parser g .fields (emitObj fs rest) with
             | some (.o fs, r) => some (.v (.obj fs), r)
             | _ => none) := rfl
      have hd : parser g .fields (emitObj fs rest) = some (.o fs, rest) :=
        parser_emitObj fs g rest (by simp [sizeJ] at hf; omega) hr
      rw [hstep, hd]
termination_by j _ _ _ _ => sizeJ j
decreasing_by
  all_goals simp [sizeJ, sizeL, sizeO]
  all_goals omega
/-- The element parser at the head of an array inverts `emitList`. -/
theorem parser_emitList : ∀ (xs : JsonList) (f : Nat) (rest : List Char),
    sizeL xs < f → noLeadDig rest = true →
    parser f .items (emitList xs rest) = some (.l xs, rest)
  | .nil, f, rest, hf, hr => by
    cases f with
    | zero => exact absurd hf (Nat.not_lt_zero _)
    | succ g => rfl
  | .cons x xs, f, rest, hf, hr => by
    cases f with
    | zero => exact absurd hf (Nat.not_lt_zero _)
    | succ g =>
      have hemit : emitList (.cons x xs) rest = emitJson x (emitListRest xs rest) := by
        simp [emitList]
      obtain ⟨c, cs, he, hrb⟩ := emitJson_head x (emitListRest xs rest)
      have hstep : parser (g + 1) .items (c :: cs)
          = (match parser g .val (c :: cs) with
             | some (.v x, r) =>
               (match parser g .itemsTail r with
                | some (.l xs, r2) => some (.l (.cons x xs), r2)
                | _ => none)
             | _ => none) := by
        simp [parser, hrb]
      have hx := sizeJ_pos x
      have hxs := sizeL_pos xs
      have hA : parser g .val (c :: cs) = some (.v x, emitListRest xs rest) := by
        rw [← he]
        exact parser_emitJson x g _ (by simp [sizeL] at hf; omega) (noLeadDig_emitListRest xs rest)
      have hC : parser g .itemsTail (emitListRest xs rest) = some (.l xs, rest) :=
        parser_emitListRest xs g rest (by simp [sizeL] at hf; omega) hr
      rw [hemit, he, hstep, hA]
      simp [hC]
termination_by xs _ _ _ _ => sizeL xs
decreasing_by
  all_goals simp [sizeJ, sizeL, sizeO]
  all_goals omega
  all_goals (have _h1 := sizeJ_pos x; have _h2 := sizeL_pos xs; omega)
/-- The element parser after an element inverts `emitListRest`. -/
theorem parser_emitListRest : ∀ (xs : JsonList) (f : Nat) (rest : List Char),
    sizeL xs < f → noLeadDig rest = true →
    parser f .itemsTail (emitListRest xs rest) = some (.l xs, rest)
  | .nil, f, rest, hf, hr => by
    cases f with
    | zero => exact absurd hf (Nat.not_lt_zero _)
    | succ g => rfl
  | .cons x xs, f, rest, hf, hr => by
    cases f with
    | zero => exact absurd hf (Nat.not_lt_zero _)
    | succ g =>
      have hemit : emitListRest (.cons x xs) rest
          = ',' :: emitJson x (emitListRest xs rest) := by
        simp [emitListRest]
      have hstep : parser (g + 1) .itemsTail (',' :: emitJson x (emitListRest xs rest))
          = (match parser g .val (emitJson x (emitListRest xs rest)) with
             | some (.v x, r) =>
               (match parser g .itemsTail r with
                | some (.l xs, r2) => some (.l (.cons x xs), r2)
                | _ => none)
             | _ => none) := rfl
      have hx := sizeJ_pos x
      have hxs := sizeL_pos xs
      have hA : parser g .val (emitJson x (emitListRest xs rest))
          = some (.v x, emitListRest xs rest) :=
        parser_emitJson x g _ (by simp [sizeL] at hf; omega) (noLeadDig_emitListRest xs rest)
      have hC : parser g .itemsTail (emitListRest xs rest) = some (.l xs, rest) :=
        parser_emitListRest xs g rest (by simp [sizeL] at hf; omega) hr
      rw [hemit, hstep, hA]
      simp [hC]
termination_by xs _ _ _ _ => sizeL xs
decreasing_by
  all_goals simp [sizeJ, sizeL, sizeO]
  all_goals omega
  all_goals (have _h1 := sizeJ_pos x; have _h2 := sizeL_pos xs; omega)
/-- The member parser at the head of an object inverts `emitObj`. -/
theorem parser_emitObj : ∀ (fs : JsonObj) (f : Nat) (rest : List Char),
    sizeO fs + 1 < f → noLeadDig rest = true →
    parser f .fields (emitObj fs rest) = some (.o fs, rest)
  | .nil, f, rest, hf, hr => by
    cases f with
    | zero => exact absurd hf (Nat.not_lt_zero _)
    | succ g => rfl
  | .cons k v fs, f, rest, hf, hr => by
    cases f with
    | zero => exact absurd hf (Nat.not_lt_zero _)
    | succ g =>
      have hemit : emitObj (.cons k v fs) rest
          = '"' :: emitStrBody k ('"' :: ':' :: emitJson v (emitObjRest fs rest)) := by
        simp [emitObj]
      have hstep : parser (g + 1) .fields
            ('"' :: emitStrBody k ('"' :: ':' :: emitJson v (emitObjRest fs rest)))
          = parser g .fieldsMust
            ('"' :: emitStrBody k ('"' :: ':' :: emitJson v (emitObjRest fs rest))) := by
        simp [parser, rbrace]
      rw [hemit, hstep, ← hemit]
      exact parser_emitObjMust k v fs g rest (by simp [sizeO] at hf ⊢; omega) hr
termination_by fs _ _ _ _ => sizeO fs + 1
decreasing_by
  all_goals simp [sizeJ, sizeL, sizeO]
  all_goals omega
/-- The single-member parser inverts a leading member of `emitObj`. -/
theorem parser_emitObjMust : ∀ (k : List Char) (v : Json) (fs : JsonObj) (f : Nat)
    (rest : List Char),
    sizeO (.cons k v fs) < f → noLeadDig rest = true →
    parser f .fieldsMust (emitObj (.cons k v fs) rest) = some (.o (.cons k v fs), rest)
  | k, v, fs, f, rest, hf, hr => by
    cases f with
    | zero => exact absurd hf (Nat.not_lt_zero _)
    | succ g =>
      have hemit : emitObj (.cons k v fs) rest
          = '"' :: emitStrBody k ('"' :: ':' :: emitJson v (emitObjRest fs rest)) := by
        simp [emitObj]
      have hstep : parser (g + 1) .fieldsMust
            ('"' :: emitStrBody k ('"' :: ':' :: emitJson v (emitObjRest fs rest)))
          = (match parseStrBody (emitStrBody k ('"' :: ':' :: emitJson v (emitObjRest fs rest))) with
             | some (k, d :: r) =>
               if d = ':' then
                 match parser g .val r with
                 | some (.v v, r2) =>
                   (match parser g .fieldsTail r2 with
                    | some (.o fs, r3) => some (.o (.cons k v fs), r3)
                    | _ => none)
                 | _ => none
               else none
             | _ => none) := rfl
      have hv := sizeJ_pos v
      have hk : parseStrBody (emitStrBody k ('"' :: ':' :: emitJson v (emitObjRest fs rest)))
          = some (k, ':' :: emitJson v (emitObjRest fs rest)) :=
        parseStrBody_emitStrBody k _
      have hA : parser g .val (emitJson v (emitObjRest fs rest))
          = some (.v v, emitObjRest fs rest) :=
        parser_emitJson v g _ (by simp [sizeO] at hf; omega) (noLeadDig_emitObjRest fs rest)
      have hE : parser g .fieldsTail (emitObjRest fs rest) = some (.o fs, rest) :=
        parser_emitObjRest fs g rest (by simp [sizeO] at hf; omega) hr
      rw [hemit, hstep, hk]
      simp [hA, hE]
termination_by k v fs _ _ _ _ => sizeO (.cons k v fs)
decreasing_by
  all_goals simp [sizeJ, sizeL, sizeO]
  all_goals omega
  all_goals (have _h1 := sizeJ_pos v; omega)
/-- The member parser after a member inverts `emitObjRest`. -/
theorem parser_emitObjRest : ∀ (fs : JsonObj) (f : Nat) (rest : List Char),
    sizeO fs + 1 < f → noLeadDig rest = true →
    parser f .fieldsTail (emitObjRest fs rest) = some (.o fs, rest)
  | .nil, f, rest, hf, hr => by
    cases f with
    | zero => exact absurd hf (Nat.not_lt_zero _)
    | succ g => rfl
  | .cons k v fs, f, rest, hf, hr => by
    cases f with
    | zero => exact absurd hf (Nat.not_lt_zero _)
    | succ g =>
      have hemit : emitObjRest (.cons k v fs) rest = ',' :: emitObj (.cons k v fs) rest := by
        simp [emitObjRest, emitObj]
      have hstep : parser (g + 1) .fieldsTail (',' :: emitObj (.cons k v fs) rest)
          = parser g .fieldsMust (emitObj (.cons k v fs) rest) := by
        simp [parser, rbrace]
      rw [hemit, hstep]
      exact parser_emitObjMust k v fs g rest (by simp [sizeO] at hf ⊢; omega) hr
termination_by fs _ _ _ _ => sizeO fs + 1
decreasing_by
  all_goals simp [sizeJ, sizeL, sizeO]
  all_goals omega
end

/-! ## Emitted length bounds the needed fuel -/

theorem escapeChar_length (c : Char) (r : List Char) :
    r.length ≤ (escapeChar c r).length := by
  simp only [escapeChar]
  split_ifs <;> simp <;> omega

theorem emitStrBody_length (s : List Char) :
    ∀ r, r.length ≤ (emitStrBody s r).length := by
  induction s with
  | nil => intro r; simp [emitStrBody]
  | cons c cs ih =>
    intro r
    calc r.length ≤ (emitStrBody cs r).length := ih r
      _ ≤ (escapeChar c (emitStrBody cs r)).length := escapeChar_length c _
      _ = (emitStrBody (c :: cs) r).length := by simp [emitStrBody]

theorem emitNatCore_length (f : Nat) :
    ∀ n r, r.length ≤ (emitNatCore f n r).length := by
  induction f with
  | zero => intro n r; simp [emitNatCore]
  | succ f ih =>
    intro n r
    by_cases h : n = 0
    · simp [emitNatCore, h]
    · have hrec := ih (n / 10) (digitChar (n % 10) :: r)
      simp only [emitNatCore, h, if_neg, List.length_cons] at hrec ⊢
      simp at hrec ⊢
      omega

theorem emitNat_length (n : Nat) (r : List Char) :
    r.length + 1 ≤ (emitNat n r).length := by
  by_cases h : n = 0
  · simp [emitNat, h]
  · obtain ⟨m, rfl⟩ : ∃ m, n = m + 1 := ⟨n - 1, by omega⟩
    have hstep : emitNatCore (m + 1) (m + 1) r
        = emitNatCore m ((m + 1) / 10) (digitChar ((m + 1) % 10) :: r) := by
      simp [emitNatCore]
    have hrec := emitNatCore_length m ((m + 1) / 10) (digitChar ((m + 1) % 10) :: r)
    simp only [emitNat, h, if_neg, hstep]
    simp at hrec ⊢
    omega

theorem emitInt_length (i : Int) (r : List Char) :
    r.length + 1 ≤ (emitInt i r).length := by
  by_cases h : i < 0
  · have := emitNat_length i.natAbs r
    simp [emitInt, h]
    omega
  · have := emitNat_length i.toNat r
    simp [emitInt, h]
    omega

mutual
/-- The emitted text is at least as long as the value's size. -/
theorem emitJson_length : ∀ (j : Json) (r : List Char),
    sizeJ j + r.length ≤ (emitJson j r).length
  | .null, r => by simp [emitJson, sizeJ]; omega
  | .bool b, r => by cases b <;> simp [emitJson, sizeJ] <;> omega
  | .num n, r => by
    have := emitInt_length n r
    simp [emitJson, sizeJ]
    omega
  | .str s, r => by
    have := emitStrBody_length s ('"' :: r)
    simp [emitJson, sizeJ]
    simp at this
    omega
  | .arr xs, r => by
    have := emitList_length xs r
    simp [emitJson, sizeJ]
    omega
  | .obj fs, r => by
    have := emitObj_length fs r
    simp [emitJson, sizeJ]
    omega
termination_by j _ => sizeJ j
decreasing_by
  all_goals simp [sizeJ, sizeL, sizeO]
  all_goals omega
/-- The element-list analogue of `emitJson_length`. -/
theorem emitList_length : ∀ (xs : JsonList) (r : List Char),
    sizeL xs + r.length ≤ (emitList xs r).length
  | .nil, r => by simp [emitList, sizeL]; omega
  | .cons x xs, r => by
    have h1 := emitJson_length x (emitListRest xs r)
    have h2 := emitListRest_length xs r
    simp [emitList, sizeL]
    omega
termination_by xs _ => sizeL xs
decreasing_by
  all_goals have h1 := sizeJ_pos x
  all_goals have h2 := sizeL_pos xs
  all_goals simp [sizeJ, sizeL, sizeO]
  all_goals omega
/-- The later-elements analogue of `emitJson_length`. -/
theorem emitListRest_length : ∀ (xs : JsonList) (r : List Char),
    sizeL xs + r.length ≤ (emitListRest xs r).length
  | .nil, r => by simp [emitListRest, sizeL]; omega
  | .cons x xs, r => by
    have h1 := emitJson_length x (emitListRest xs r)
    have h2 := emitListRest_length xs r
    simp [emitListRest, sizeL]
    omega
termination_by xs _ => sizeL xs
decreasing_by
  all_goals have h1 := sizeJ_pos x
  all_goals have h2 := sizeL_pos xs
  all_goals simp [sizeJ, sizeL, sizeO]
  all_goals omega
/-- The member-list analogue of `emitJson_length` (one spare for the brace). -/
theorem emitObj_length : ∀ (fs : JsonObj) (r : List Char),
    sizeO fs + 1 + r.length ≤ (emitObj fs r).length
  | .nil, r => by simp [emitObj, sizeO]; omega
  | .cons k v fs, r => by
    have h1 := emitJson_length v (emitObjRest fs r)
    have h2 := emitObjRest_length fs r
    have h3 := emitStrBody_length k ('"' :: ':' :: emitJson v (emitObjRest fs r))
    simp [emitObj, sizeO]
    simp at h3
    omega
termination_by fs _ => sizeO fs + 1
decreasing_by
  all_goals have _h1 := sizeJ_pos v
  all_goals simp [sizeJ, sizeL, sizeO]
  all_goals omega
/-- The later-members analogue of `emitJson_length`. -/
theorem emitObjRest_length : ∀ (fs : JsonObj) (r : List Char),
    sizeO fs + 1 + r.length ≤ (emitObjRest fs r).length
  | .nil, r => by simp [emitObjRest, sizeO]; omega
  | .cons k v fs, r => by
    have h1 : emitObjRest (.cons k v fs) r = ',' :: emitObj (.cons k v fs) r := by
      simp [emitObjRest, emitObj]
    have h2 := emitObj_length (.cons k v fs) r
    simp [h1]
    omega
termination_by fs _ => sizeO fs + 2
decreasing_by
  all_goals have _h1 := sizeJ_pos v
  all_goals simp [sizeJ, sizeL, sizeO]
  all_goals omega
end

/-! ## Round trip, top level -/

/-- The codec round trip: JSON.parse inverts JSON.stringify on every
structurally-serializable value. -/
theorem parseJson_stringify (j : Json) : parseJson (stringify j) = some j := by
  have hlen := emitJson_length j []
  simp at hlen
  have h := parser_emitJson j ((emitJson j []).length + 1) [] (by omega) rfl
  show (match parser ((emitJson j []).length + 1) .val (emitJson j []) with
        | some (.v j, []) => some j
        | _ => none) = some j
  rw [h]

/-- JSON.stringify never returns the empty string. -/
theorem stringify_ne_empty (j : Json) : stringify j ≠ "" := by
  intro h
  have hlen := emitJson_length j []
  have hdata : (emitJson j []).length = 0 := by
    have := congrArg (fun s => s.data.length) h
    simpa [stringify] using this
  have := sizeJ_pos j
  simp at hlen
  omega

/-! ## Properties of the promise model -/

theorem firstRej_eq_none (ps : List Settled) :
    firstRej ps = none ↔ ∀ p ∈ ps, p.error = none := by
  induction ps with
  | nil => simp [firstRej]
  | cons p ps ih =>
    cases hp : p.error with
    | none =>
      simp only [firstRej, hp]
      rw [ih]
      constructor
      · intro h q hq
        rcases List.mem_cons.mp hq with rfl | hq2
        · exact hp
        · exact h q hq2
      · intro h q hq
        exact h q (List.mem_cons_of_mem p hq)
    | some e =>
      constructor
      · intro h
        exfalso
        simp only [firstRej, hp] at h
        cases hfr : firstRej ps with
        | none => rw [hfr] at h; cases h
        | some q => rw [hfr] at h; by_cases ht : p.time ≤ q.time <;> simp [ht] at h
      · intro h
        have hcontra := h p (List.mem_cons_self p ps)
        rw [hp] at hcontra
        cases hcontra

theorem firstRej_spec (ps : List Settled) :
    ∀ q, firstRej ps = some q →
      q ∈ ps ∧ q.error ≠ none ∧ ∀ p ∈ ps, p.error ≠ none → q.time ≤ p.time := by
  induction ps with
  | nil => intro q h; cases h
  | cons p ps ih =>
    intro q h
    cases hp : p.error with
    | none =>
      simp only [firstRej, hp] at h
      obtain ⟨hmem, hne, hmin⟩ := ih q h
      refine ⟨List.mem_cons_of_mem p hmem, hne, ?_⟩
      intro r hr hrne
      rcases List.mem_cons.mp hr with rfl | hr2
      · exact absurd hp hrne
      · exact hmin r hr2 hrne
    | some e =>
      simp only [firstRej, hp] at h
      cases hfr : firstRej ps with
      | none =>
        rw [hfr] at h
        replace h : some p = some q := h
        injection h with h
        subst h
        refine ⟨List.mem_cons_self p ps, by simp [hp], ?_⟩
        intro r hr hrne
        rcases List.mem_cons.mp hr with rfl | hr2
        · exact le_rfl
        · exact absurd ((firstRej_eq_none ps).mp hfr r hr2) hrne
      | some q2 =>
        rw [hfr] at h
        replace h : (if p.time ≤ q2.time then some p else some q2) = some q := h
        obtain ⟨hmem2, hne2, hmin2⟩ := ih q2 hfr
        by_cases ht : p.time ≤ q2.time
        · rw [if_pos ht] at h
          injection h with h
          subst h
          refine ⟨List.mem_cons_self p ps, by simp [hp], ?_⟩
          intro r hr hrne
          rcases List.mem_cons.mp hr with rfl | hr2
          · exact le_rfl
          · exact le_trans ht (hmin2 r hr2 hrne)
        · rw [if_neg ht] at h
          injection h with h
          subst h
          refine ⟨List.mem_cons_of_mem p hmem2, hne2, ?_⟩
          intro r hr hrne
          rcases List.mem_cons.mp hr with rfl | hr2
          · omega
          · exact hmin2 r hr2 hrne

theorem firstRej_isSome (ps : List Settled) (p : Settled)
    (hp : p ∈ ps) (he : p.error ≠ none) : ∃ q, firstRej ps = some q := by
  cases hfr : firstRej ps with
  | none => exact absurd ((firstRej_eq_none ps).mp hfr p hp) he
  | some q => exact ⟨q, rfl⟩

/-! ## Properties of newline splitting -/

theorem splitNl_no_nl (s : List Char) (h : '\n' ∉ s) : splitNl s = [s] := by
  induction s with
  | nil => rfl
  | cons c cs ih =>
    have hc : ¬c = '\n' := fun he => h (he ▸ List.mem_cons_self c cs)
    have ht := ih (fun hm => h (List.mem_cons_of_mem c hm))
    simp [splitNl, hc, ht]

theorem splitNl_append (s t : List Char) (h : '\n' ∉ s) :
    splitNl (s ++ '\n' :: t) = s :: splitNl t := by
  induction s with
  | nil => simp [splitNl]
  | cons c cs ih =>
    have hc : ¬c = '\n' := fun he => h (he ▸ List.mem_cons_self c cs)
    have ht := ih (fun hm => h (List.mem_cons_of_mem c hm))
    simp [splitNl, hc, ht]

theorem splitNl_joinNl : ∀ (segs : List (List Char)), segs ≠ [] →
    (∀ s ∈ segs, '\n' ∉ s) → splitNl (joinNl segs) = segs
  | [], h, _ => absurd rfl h
  | [s], _, hnl => by
    simp only [joinNl]
    exact splitNl_no_nl s (hnl s (List.mem_singleton.mpr rfl))
  | s :: s2 :: rest, _, hnl => by
    have h1 : '\n' ∉ s := hnl s (List.mem_cons_self _ _)
    have ht := splitNl_joinNl (s2 :: rest) (by simp)
      (fun r hr => hnl r (List.mem_cons_of_mem s hr))
    simp only [joinNl, splitNl_append s _ h1, ht]

/-! ## Properties of the sequential batch runs -/

theorem setAllRun_ok (post : String → Json → Option String) :
    ∀ m : List (String × Json), (∀ p ∈ m, post p.1 p.2 = none) →
      Client.setAllRun post m = (m.map Prod.fst, m, none) := by
  intro m
  induction m with
  | nil => intro _; rfl
  | cons p rest ih =>
    intro h
    obtain ⟨k, v⟩ := p
    have hk : post k v = none := h (k, v) (List.mem_cons_self _ _)
    have ht := ih (fun q hq => h q (List.mem_cons_of_mem _ hq))
    simp [Client.setAllRun, hk, ht]

theorem setAllRun_fail (post : String → Json → Option String)
    (pre : List (String × Json)) (k : String) (v : Json) (e : String)
    (tail : List (String × Json))
    (hpre : ∀ p ∈ pre, post p.1 p.2 = none) (hk : post k v = some e) :
    Client.setAllRun post (pre ++ (k, v) :: tail)
      = (pre.map Prod.fst ++ [k], pre, some e) := by
  induction pre with
  | nil => simp [Client.setAllRun, hk]
  | cons p rest ih =>
    obtain ⟨k2, v2⟩ := p
    have hk2 : post k2 v2 = none := hpre (k2, v2) (List.mem_cons_self _ _)
    have ht := ih (fun q hq => hpre q (List.mem_cons_of_mem _ hq))
    simp [Client.setAllRun, hk2, ht]

theorem getAllRun_spec (body : String → String) :
    ∀ (keys : List String) (out : List (String × GetResult)),
      Client.getAllRun body keys = .ok out →
      out.map Prod.fst = keys ∧
      ∀ k ∈ keys, Client.get k false (body k) = .ok .null → (k, GetResult.null) ∈ out := by
  intro keys
  induction keys with
  | nil =>
    intro out h
    simp only [Client.getAllRun] at h
    injection h with h
    subst h
    simp
  | cons k rest ih =>
    intro out h
    simp only [Client.getAllRun] at h
    cases hg : Client.get k false (body k) with
    | error e => rw [hg] at h; cases h
    | ok v =>
      rw [hg] at h
      cases hrest : Client.getAllRun body rest with
      | error e => rw [hrest] at h; cases h
      | ok out2 =>
        rw [hrest] at h
        injection h with h
        subst h
        obtain ⟨h1, h2⟩ := ih out2 hrest
        constructor
        · simp [h1]
        · intro k2 hk2 hnull
          rcases List.mem_cons.mp hk2 with rfl | htl
          · rw [hg] at hnull
            injection hnull with hv
            rw [hv]
            exact List.mem_cons_self _ _
          · exact List.mem_cons_of_mem _ (h2 k2 htl hnull)

/-! ## The claims -/

/-- Claim C1: for every structurally-serializable value other than
null/undefined, non-raw `get` applied to the wire text produced by `set`'s
JSON encoding returns that value: `JSON.parse` inverts `JSON.stringify`
and the null-normalization of `get` does not fire. -/
theorem claim1_roundtrip (key : String) (v : Json) (hv : v ≠ Json.null) :
    Client.get key false (stringify v) = .ok (.val v) := by
  have hne := stringify_ne_empty v
  have hp := parseJson_stringify v
  simp only [Client.get, Bool.false_eq_true, if_false, if_neg hne, hp]

/-- Claim C1 witness at a concrete nested value. -/
theorem claim1_roundtrip_witness :
    Client.get "k" false (stringify sampleJson) = .ok (.val sampleJson) :=
  claim1_roundtrip "k" sampleJson (fun h => nomatch h)

/-- Claim C2 counterexample: with the early rejection of k2, `Promise.all`
surfaces the failure at time 1, before the delete of k3 settles at time 7 —
the operation does not wait for all outstanding deletes to settle. -/
theorem claim2_early_surface :
    (Client.deleteMultiple cexDel ["k1", "k2", "k3"]).2.error = some "boom" ∧
    (Client.deleteMultiple cexDel ["k1", "k2", "k3"]).2.time = 1 ∧
    settleMax (["k1", "k2", "k3"].map cexDel) = 7 ∧
    (Client.deleteMultiple cexDel ["k1", "k2", "k3"]).2.time
      < settleMax (["k1", "k2", "k3"].map cexDel) := by
  decide

/-- Claim C2 as amended: `deleteMultiple` (and `empty` on its listed keys)
issues a delete for every key before awaiting, so every key is attempted;
when some delete fails, the operation surfaces the earliest-settling
failure — possibly before the remaining deletes have settled. -/
theorem claim2_amended (del : String → Settled) (keys : List String) (k : String)
    (hk : k ∈ keys) (hf : (del k).error ≠ none) :
    (Client.deleteMultiple del keys).1 = keys ∧
    (Client.empty del keys).1 = keys ∧
    ∃ k2 ∈ keys, (del k2).error ≠ none ∧
      (Client.deleteMultiple del keys).2 = del k2 ∧
      (Client.empty del keys).2 = del k2 ∧
      ∀ k3 ∈ keys, (del k3).error ≠ none → (del k2).time ≤ (del k3).time := by
  obtain ⟨q, hq⟩ := firstRej_isSome (keys.map del) (del k) (List.mem_map_of_mem del hk) hf
  obtain ⟨hmem, hne, hmin⟩ := firstRej_spec (keys.map del) q hq
  obtain ⟨k2, hk2mem, hk2eq⟩ := List.mem_map.mp hmem
  have hout : promiseAll (keys.map del) = del k2 := by
    simp [promiseAll, hq, hk2eq]
  refine ⟨rfl, rfl, k2, hk2mem, ?_, hout, hout, ?_⟩
  · rw [hk2eq]; exact hne
  · intro k3 hk3 hne3
    rw [hk2eq]
    exact hmin (del k3) (List.mem_map_of_mem del hk3) hne3

/-- Claim C2 amended, witness: with the concrete oracle all three deletes
are issued even though k2's fails. -/
theorem claim2_amended_witness :
    (Client.deleteMultiple cexDel ["k1", "k2", "k3"]).1 = ["k1", "k2", "k3"] ∧
    (Client.empty cexDel ["k1", "k2", "k3"]).1 = ["k1", "k2", "k3"] :=
  ⟨(claim2_amended cexDel ["k1", "k2", "k3"] "k2" (by decide) (by decide)).1,
   (claim2_amended cexDel ["k1", "k2", "k3"] "k2" (by decide) (by decide)).2.1⟩

/-- Claim C3 (code bug): `set` does issue exactly one POST to the base
endpoint, but its body is the key, an equals sign, and the raw
`JSON.stringify` text — the serialized value is NOT URL-form-encoded, so at
the failing input (key "k", string value "a&b") the body carries a bare
`&` and quotes where the declared form encoding requires `%22a%26b%22`. -/
theorem claim3_set_body_not_encoded :
    Client.set "B" "k" (.str ['a', '&', 'b']) = [.post "B" "k=\"a&b\""] ∧
    encodeURIComponent (stringify (.str ['a', '&', 'b'])) = "%22a%26b%22" ∧
    Client.setBody "k" (.str ['a', '&', 'b'])
      ≠ "k=" ++ encodeURIComponent (stringify (.str ['a', '&', 'b'])) := by
  refine ⟨rfl, rfl, ?_⟩
  decide

/-- Claim C4: when the stored text is non-empty and not valid JSON, non-raw
`get` fails with the SyntaxError that names the key and points at the raw
option, while raw `get` on the same body succeeds with the text verbatim. -/
theorem claim4_decode_error (key body : String)
    (h1 : body ≠ "") (h2 : parseJson body = none) :
    Client.get key false body = .error (decodeErrorMsg key) ∧
    decodeErrorMsg key
      = "Failed to parse value of " ++ key
        ++ ", try passing a raw option to get the raw value" ∧
    Client.get key true body = .ok (.str body) := by
  refine ⟨?_, rfl, rfl⟩
  simp [Client.get, h1, h2]

/-- Claim C4 witness at the body of the spec's example. -/
theorem claim4_decode_error_witness :
    Client.get "k" false "\x7bnot valid\x7d" = .error (decodeErrorMsg "k") ∧
    Client.get "k" true "\x7bnot valid\x7d" = .ok (.str "\x7bnot valid\x7d") :=
  ⟨(claim4_decode_error "k" "\x7bnot valid\x7d" (by decide) (by rfl)).1,
   (claim4_decode_error "k" "\x7bnot valid\x7d" (by decide) (by rfl)).2.2⟩

/-- Claim C5: an empty fetched body yields `null` in non-raw mode and the
empty string in raw mode; and a body that decodes to JSON null is likewise
normalized to `null` in non-raw mode. -/
theorem claim5_absent (key body : String) :
    Client.get key false "" = .ok .null ∧
    Client.get key true "" = .ok (.str "") ∧
    (parseJson body = some .null → Client.get key false body = .ok .null) := by
  refine ⟨rfl, rfl, ?_⟩
  intro h
  by_cases hb : body = ""
  · subst hb; rfl
  · simp [Client.get, hb, h]

/-- Claim C5 witness, with the stored text "null" for the third clause. -/
theorem claim5_absent_witness :
    Client.get "k" false "" = .ok .null ∧
    Client.get "k" true "" = .ok (.str "") ∧
    Client.get "k" false "null" = .ok .null :=
  ⟨(claim5_absent "k" "null").1, (claim5_absent "k" "null").2.1,
   (claim5_absent "k" "null").2.2 (by rfl)⟩

/-- Claim C6: `setAll` performs one `set` per entry sequentially in the
mapping's iteration order; when every entry succeeds all are written in
order, and when some entry fails, the keys attempted are exactly the
successful prefix plus the failing key, the prefix stays written (no
rollback), later entries are never attempted, and the error propagates. -/
theorem claim6_setAll_sequential (post : String → Json → Option String)
    (pre tail : List (String × Json)) (k : String) (v : Json) (e : String)
    (hpre : ∀ p ∈ pre, post p.1 p.2 = none) (hk : post k v = some e) :
    Client.setAllRun post (pre ++ (k, v) :: tail)
      = (pre.map Prod.fst ++ [k], pre, some e) ∧
    ∀ m : List (String × Json), (∀ p ∈ m, post p.1 p.2 = none) →
      Client.setAllRun post m = (m.map Prod.fst, m, none) :=
  ⟨setAllRun_fail post pre k v e tail hpre hk, fun m hm => setAllRun_ok post m hm⟩

/-- Claim C6 witness: the entry before "bad" is written, "z" after it is
never attempted, and the failure surfaces. -/
theorem claim6_setAll_witness :
    Client.setAllRun cexPost [("a", Json.null), ("bad", Json.num 1), ("z", Json.bool true)]
      = (["a", "bad"], [("a", Json.null)], some "boom") :=
  (claim6_setAll_sequential cexPost [("a", Json.null)] [("z", Json.bool true)]
    "bad" (Json.num 1) "boom"
    (fun p hp => by rw [List.mem_singleton] at hp; subst hp; rfl) rfl).1

/-- Claim C7: `list` addresses `base?encode=true&prefix=<urlEncoded pfx>`;
an empty response body yields the empty sequence, and a body of
newline-joined segments is split back into those segments, each URL-decoded
in the server-provided order. -/
theorem claim7_list (base pfx : String) (segs : List (List Char))
    (h1 : segs ≠ []) (h2 : ∀ s ∈ segs, '\n' ∉ s) (h3 : joinNl segs ≠ []) :
    Client.listURL base pfx = base ++ "?encode=true&prefix=" ++ encodeURIComponent pfx ∧
    Client.listFromBody "" = some [] ∧
    Client.listFromBody (String.mk (joinNl segs))
      = segs.mapM (fun seg => decodeURIComponent (String.mk seg)) := by
  refine ⟨rfl, rfl, ?_⟩
  have hlen : ¬(String.mk (joinNl segs)).length = 0 := by
    intro h0
    apply h3
    have : (joinNl segs).length = 0 := h0
    exact List.length_eq_zero.mp this
  simp only [Client.listFromBody, if_neg hlen]
  rw [splitNl_joinNl segs h1 h2]

/-- Claim C7 witness: two URL-encoded keys on the wire decode to
`["a/b", "a c"]` in order. -/
theorem claim7_list_witness :
    Client.listURL "B" "p" = "B" ++ "?encode=true&prefix=" ++ encodeURIComponent "p" ∧
    Client.listFromBody "" = some [] ∧
    Client.listFromBody
        (String.mk (joinNl [['a', '%', '2', 'F', 'b'], ['a', '%', '2', '0', 'c']]))
      = some ["a/b", "a c"] := by
  have h := claim7_list "B" "p" [['a', '%', '2', 'F', 'b'], ['a', '%', '2', '0', 'c']]
    (by decide) (by decide) (by decide)
  exact ⟨h.1, h.2.1, h.2.2.trans (by decide)⟩

/-- Claim C8 counterexample: with no explicit endpoint and no environment
value, the constructor does not fail — it succeeds with no endpoint (the
TypeScript non-null assertion performs no runtime check). -/
theorem claim8_no_failure : Client.construct none none = .ok none := rfl

/-- Claim C8 as amended: construction never fails; when both the explicit
key and the environment variable are absent it silently yields a client
whose endpoint is the absent value (`undefined`). -/
theorem claim8_amended (explicitKey envURL : Option String) :
    (∃ r, Client.construct explicitKey envURL = .ok r) ∧
    Client.construct none none = .ok none :=
  ⟨⟨_, rfl⟩, rfl⟩

/-- Claim C9: `set` and `delete` never inspect the HTTP status: any
fulfilled response resolves to success whatever its status code, and only a
transport rejection propagates. -/
theorem claim9_status_ignored (s1 s2 : Nat) (e : String) :
    Client.setResult (.ok s1) = .ok () ∧
    Client.deleteResult (.ok s1) = .ok () ∧
    Client.setResult (.ok s1) = Client.setResult (.ok s2) ∧
    Client.deleteResult (.ok s1) = Client.deleteResult (.ok s2) ∧
    Client.setResult (.error e) = .error e ∧
    Client.deleteResult (.error e) = .error e :=
  ⟨rfl, rfl, rfl, rfl, rfl, rfl⟩

/-- Claim C10: when `getAll` completes, its result binds every listed key
in order — keys whose non-raw `get` yields the absent value are included
bound to `null` rather than omitted, so the result's key set equals the
listed keys. -/
theorem claim10_getAll (body : String → String) (keys : List String)
    (out : List (String × GetResult)) (h : Client.getAllRun body keys = .ok out) :
    out.map Prod.fst = keys ∧
    ∀ k ∈ keys, Client.get k false (body k) = .ok .null → (k, GetResult.null) ∈ out :=
  getAllRun_spec body keys out h

/-- Claim C10 witness: the absent key "a" appears bound to null and the key
list is preserved. -/
theorem claim10_getAll_witness :
    [("a", GetResult.null), ("b", GetResult.val (Json.num 1))].map Prod.fst = ["a", "b"] ∧
    ("a", GetResult.null) ∈ [("a", GetResult.null), ("b", GetResult.val (Json.num 1))] := by
  have h := claim10_getAll cexBody ["a", "b"]
    [("a", GetResult.null), ("b", GetResult.val (Json.num 1))] (by rfl)
  exact ⟨h.1, h.2 "a" (by decide) (by rfl)⟩
